import Mathlib

/-!
Verification of the fcm-miner proof-of-work nonce search engine.
Byte buffers are modelled as `List Nat` with every element below 256;
64-bit machine integers are `Nat` with explicit reduction modulo `2 ^ 64`.
-/

namespace Miner

/-- Bit length of `n`, computed with explicit fuel so that it is structurally
recursive (`szAux fuel n` is the bit length of `n` whenever `n < 2 ^ fuel`). -/
def szAux : Nat → Nat → Nat
  | 0, _ => 0
  | fuel + 1, n => if n = 0 then 0 else szAux fuel (n / 2) + 1

/-- Number of leading zero bits of a 64-bit word: models `u64::leading_zeros`
for arguments below `2 ^ 64`. -/
def leadingZeros64 (x : Nat) : Nat := 64 - szAux 64 x

/-- Big-endian byte encoding of `n` on `k` bytes (models Rust `to_be_bytes`,
which keeps the low `8 k` bits). -/
def toBeBytes : Nat → Nat → List Nat
  | 0, _ => []
  | k + 1, n => n / 256 ^ k % 256 :: toBeBytes k n

/-- `u64::to_be_bytes`. -/
def toBe8 (n : Nat) : List Nat := toBeBytes 8 n

/-- Big-endian value of a byte list (models `u64::from_be_bytes`). -/
def valBE (l : List Nat) : Nat := l.foldl (fun a b => 256 * a + b) 0

/-- Little-endian value of a byte list (lane packing of the hash state). -/
def valLE (l : List Nat) : Nat := l.foldr (fun b acc => acc * 256 + b) 0

/-- The nibble sequence of a byte list: each byte contributes its high then
its low 4-bit nibble (the hexadecimal digits of the digest, in order). -/
def nibbles : List Nat → List Nat
  | [] => []
  | b :: rest => b / 16 :: b % 16 :: nibbles rest

/-- Base-16 value of a nibble list. -/
def val16 (l : List Nat) : Nat := l.foldl (fun a d => 16 * a + d) 0

/-- Leading-zero count of a digit list. -/
def lzCount (l : List Nat) : Nat := (l.takeWhile fun d => d == 0).length

/-- `copy_from_slice` into the range of `l` starting at index `i`:
the bytes of `v` replace the `v.length` bytes of `l` from position `i`. -/
def setRange (l : List Nat) (i : Nat) (v : List Nat) : List Nat :=
  l.take i ++ v ++ l.drop (i + v.length)

/-- `count_leading_hex_zeros` from `src/main.rs` (textually identical in
`src/7_main.rs` and `src/8_main.rs`): leading zero bits of the first
big-endian word, divided by 4; if that yields all 16 nibbles, add the same
count over the next word. -/
def count_leading_hex_zeros (hash : List Nat) : Nat :=
  let first_u64 := valBE (hash.take 8)
  let first_count := leadingZeros64 first_u64 / 4
  if first_count = 16 then
    first_count + leadingZeros64 (valBE ((hash.drop 8).take 8)) / 4
  else
    first_count

/-- The acceptance test of the worker loop in `src/main.rs`:
`count_leading_hex_zeros(&hash) == target_zeros`. -/
def accepts_main (hash : List Nat) (target : Nat) : Bool :=
  count_leading_hex_zeros hash == target

/-- The acceptance test of the worker loop in `src/8_main.rs`:
`count_leading_hex_zeros(&hash) >= target_zeros`. -/
def accepts_8 (hash : List Nat) (target : Nat) : Bool :=
  decide (count_leading_hex_zeros hash ≥ target)

/-- Reference definition, following the spec's words: the naive
nibble-by-nibble leading-zero scan over the full digest. -/
def naive_hex_zeros (digest : List Nat) : Nat :=
  ((nibbles digest).takeWhile fun d => d == 0).length

/-- The hard-coded message bytes `"KALE"` of `src/main.rs`. -/
def MESSAGE : List Nat := [75, 65, 76, 69]

/-- The hard-coded 32 miner identity bytes of `src/main.rs`. -/
def MINER : List Nat :=
  [71, 91, 242, 164, 88, 135, 40, 119, 138, 130, 113, 54, 158, 224, 57, 86,
   17, 3, 255, 206, 53, 73, 64, 44, 224, 164, 121, 206, 191, 27, 9, 245]

/-- `build_prefix` from `src/main.rs`: a 68-byte array filled range by range
with the format tags, the big-endian index, the message, the previous hash
and the nonce field tag. -/
def build_prefix_bytes (index : Nat) (prev_hash : List Nat) : List Nat :=
  let p := List.replicate 68 0
  let p := setRange p 0 [0, 0, 0, 5]
  let p := setRange p 4 (toBe8 index)
  let p := setRange p 12 [0, 0, 0, 14, 0, 0, 0, 4]
  let p := setRange p 20 MESSAGE
  let p := setRange p 24 [0, 0, 0, 13, 0, 0, 0, 32]
  let p := setRange p 32 prev_hash
  setRange p 64 [0, 0, 0, 5]

/-- `build_suffix` from `src/main.rs`: a 44-byte array holding the miner
field tag and the 32 miner bytes. -/
def build_suffix_bytes : List Nat :=
  let s := List.replicate 44 0
  let s := setRange s 0 [0, 0, 0, 18, 0, 0, 0, 0, 0, 0, 0, 0]
  setRange s 12 MINER

/-- The nonce slot offset of `src/main.rs` (`prefix.len()`), fixed at
template construction and used unchanged by every worker iteration. -/
def NONCE_OFFSET : Nat := 68

/-- The `hasher_buffer` of `src/main.rs` as first assembled: 120 zero bytes
with the static data copied in around the 8-byte nonce slot. -/
def hasher_buffer_init (index : Nat) (prev_hash : List Nat) : List Nat :=
  let b := List.replicate 120 0
  let b := setRange b 0 (build_prefix_bytes index prev_hash)
  setRange b 76 build_suffix_bytes

/-- One nonce write of the `src/main.rs` worker loop:
`hasher_buffer[68..68 + 8].copy_from_slice(&nonce.to_be_bytes())`. -/
def write_nonce (buffer : List Nat) (nonce : Nat) : List Nat :=
  setRange buffer NONCE_OFFSET (toBe8 nonce)

/-- `BlockData::new` from `src/0_main.rs`, generic in all fields: the bytes
before the nonce slot, built by successive `extend_from_slice` appends. -/
def static_prefix_bytes (index : Nat) (message prev_hash : List Nat) : List Nat :=
  [0, 0, 0, 5] ++ toBe8 index ++ [0, 0, 0, 14, 0, 0, 0, 4] ++ message
    ++ [0, 0, 0, 13, 0, 0, 0, 32] ++ prev_hash ++ [0, 0, 0, 5]

/-- `BlockData::new` from `src/0_main.rs`: the bytes after the nonce slot. -/
def static_suffix_bytes (miner : List Nat) : List Nat :=
  [0, 0, 0, 18, 0, 0, 0, 0, 0, 0, 0, 0] ++ miner

/-- The full preimage hashed by the `src/0_main.rs` worker: static bytes
before the slot, the big-endian nonce, static bytes after the slot. -/
def block_template (index : Nat) (message prev_hash miner : List Nat)
    (nonce : Nat) : List Nat :=
  static_prefix_bytes index message prev_hash ++ toBe8 nonce
    ++ static_suffix_bytes miner

/-- Modelled from the spec: re-parsing the block index from the encoded
template at its declared offset (8 big-endian bytes after the leading
4-byte format tag). -/
def parse_index (t : List Nat) : Nat := valBE ((t.drop 4).take 8)

/-- Modelled from the spec: the declared message length, read from the
4-byte big-endian length tag at offset 16 of the encoded template. -/
def parse_msg_len (t : List Nat) : Nat := valBE ((t.drop 16).take 4)

/-- Modelled from the spec: re-parsing the message bytes at offset 20 using
the declared length tag. -/
def parse_message (t : List Nat) : List Nat := (t.drop 20).take (parse_msg_len t)

/-- Modelled from the spec: re-parsing the 32 previous-hash bytes, located
after the message field and its 8 tag bytes. -/
def parse_prev_hash (t : List Nat) : List Nat :=
  (t.drop (20 + parse_msg_len t + 8)).take 32

/-- The 24 Keccak-f[1600] round constants. -/
def RC : List Nat :=
  [1, 32898, 9223372036854808714, 9223372039002292224, 32907, 2147483649,
   9223372039002292353, 9223372036854808585, 138, 136, 2147516425,
   2147483658, 2147516555, 9223372036854775947, 9223372036854808713,
   9223372036854808579, 9223372036854808578, 9223372036854775936, 32778,
   9223372039002259466, 9223372039002292353, 9223372036854808704,
   2147483649, 9223372039002292232]

/-- Source lane of the combined rho-pi step, indexed by destination lane. -/
def piSrc : List Nat :=
  [0, 6, 12, 18, 24, 3, 9, 10, 16, 22, 1, 7, 13, 19, 20, 4, 5, 11, 17, 23,
   2, 8, 14, 15, 21]

/-- Rotation amount of the combined rho-pi step, indexed by destination lane. -/
def piRot : List Nat :=
  [0, 44, 43, 21, 14, 28, 20, 3, 45, 61, 1, 6, 25, 8, 18, 27, 36, 10, 15,
   56, 62, 55, 39, 41, 2]

/-- 64-bit left rotation. -/
def rotl64 (x n : Nat) : Nat := ((x <<< n) % 2 ^ 64) ||| (x >>> (64 - n))

/-- Lane `j` of a 25-lane state (`x + 5 y` indexing). -/
def lane (s : List Nat) (j : Nat) : Nat := s.getD j 0

/-- Keccak theta step. -/
def theta (s : List Nat) : List Nat :=
  let c := (List.range 5).map fun x =>
    lane s x ^^^ lane s (x + 5) ^^^ lane s (x + 10) ^^^ lane s (x + 15)
      ^^^ lane s (x + 20)
  let d := (List.range 5).map fun x =>
    lane c ((x + 4) % 5) ^^^ rotl64 (lane c ((x + 1) % 5)) 1
  (List.range 25).map fun j => lane s j ^^^ lane d (j % 5)

/-- Keccak rho and pi steps combined. -/
def rhoPi (s : List Nat) : List Nat :=
  (List.range 25).map fun j => rotl64 (lane s (lane piSrc j)) (lane piRot j)

/-- Keccak chi step. -/
def chi (b : List Nat) : List Nat :=
  (List.range 25).map fun j =>
    lane b j ^^^
      ((lane b (j / 5 * 5 + (j + 1) % 5) ^^^ (2 ^ 64 - 1)) &&&
        lane b (j / 5 * 5 + (j + 2) % 5))

/-- Keccak iota step: xor the round constant into lane 0. -/
def iotaRound (s : List Nat) (rc : Nat) : List Nat :=
  match s with
  | [] => []
  | a :: rest => (a ^^^ rc) :: rest

/-- The Keccak-f[1600] permutation: 24 rounds. -/
def keccakF (s : List Nat) : List Nat :=
  RC.foldl (fun st rc => iotaRound (chi (rhoPi (theta st))) rc) s

/-- Keccak multi-rate padding at rate 136 with domain byte `0x01` (the
original Keccak padding used by `tiny_keccak::Keccak::v256`). -/
def pad101 (msg : List Nat) : List Nat :=
  let padlen := 136 - msg.length % 136
  if padlen = 1 then msg ++ [129]
  else msg ++ [1] ++ List.replicate (padlen - 2) 0 ++ [128]

/-- The 17 little-endian lanes of one 136-byte rate block. -/
def blockLanes (block : List Nat) : List Nat :=
  (List.range 17).map fun i => valLE ((block.drop (8 * i)).take 8)

/-- Absorb one rate block: xor its lanes into the state and permute. -/
def absorbBlock (s block : List Nat) : List Nat :=
  keccakF ((List.range 25).map fun j =>
    if j < 17 then lane s j ^^^ lane (blockLanes block) j else lane s j)

/-- Split a padded message into `n` rate blocks of 136 bytes. -/
def chunksOf136 : Nat → List Nat → List (List Nat)
  | 0, _ => []
  | n + 1, p => p.take 136 :: chunksOf136 n (p.drop 136)

/-- Keccak-256 of a byte list: pad, absorb all blocks into the all-zero
state, and squeeze the first 32 output bytes little-endian from the lanes. -/
def keccak256 (msg : List Nat) : List Nat :=
  let p := pad101 msg
  let st := (chunksOf136 (p.length / 136) p).foldl absorbBlock
    (List.replicate 25 0)
  (List.range 32).map fun i => (lane st (i / 8) >>> (8 * (i % 8))) % 256

/-- One worker iteration of `src/main.rs`: write the big-endian nonce into
the slot, then hash the whole buffer. -/
def worker_digest (template : List Nat) (nonce : Nat) : List Nat :=
  keccak256 (write_nonce template nonce)

/-- One worker iteration of `src/7_main.rs`: the buffer update is commented
out there and the worker hashes only the 8 nonce bytes
(`keccak.update(&nonce.to_be_bytes())`). -/
def worker_digest_7 (nonce : Nat) : List Nat :=
  keccak256 (toBe8 nonce)

/-- `BATCH_SIZE` of `src/main.rs`. -/
def BATCH_SIZE : Nat := 50000

/-- The `nonce_start` values of a `src/main.rs` worker: it starts at
`thread_id` and advances by `BATCH_SIZE` after each batch
(`nonce_start = nonce_end`). -/
def batch_start (thread_id : Nat) : Nat → Nat
  | 0 => thread_id
  | b + 1 => batch_start thread_id b + BATCH_SIZE

/-- The nonce hashed by a `src/main.rs` worker at position `i` of batch `b`
(the inner loop runs `nonce` over `nonce_start..nonce_end`). -/
def tried_main (thread_id b i : Nat) : Nat := batch_start thread_id b + i

/-- The nonce sequence of a `src/8_main.rs` worker: it starts at
`thread_id` and advances by `num_threads` after every hash. -/
def nonce_8 (num_threads thread_id : Nat) : Nat → Nat
  | 0 => thread_id
  | k + 1 => nonce_8 num_threads thread_id k + num_threads

/-- `u64::MAX`. -/
def U64_MAX : Nat := 2 ^ 64 - 1

/-- The two-branch downward nonce update of `mine_hashes` in
`src/2_main.rs`. -/
def next_nonce (thread_count nonce : Nat) : Nat :=
  if nonce ≥ thread_count then nonce - thread_count
  else U64_MAX - (thread_count - (nonce + 1))

/-- The process-wide atomics shared between workers and the monitor:
hash counter, latest-nonce cell, found flag and published result slot. -/
structure SharedState where
  hashCount : Nat
  latestNonce : Nat
  found : Bool
  result : Option (Nat × List Nat)

/-- The monitor's private loop state: last sampled counter value and the
bounded sliding window of recent rates. -/
structure MonitorState where
  lastCount : Nat
  rates : List Rat

/-- `MAX_RATES_BUFFER` of `src/4_main.rs`. -/
def MAX_RATES_BUFFER : Nat := 10

/-- One iteration of the throughput-monitor loop of `src/4_main.rs` (the
`src/main.rs` `report_thread` is the same loop without the rate window):
load the shared counter and nonce, compute the smoothed rate over the
elapsed seconds, and update only the monitor's private state. The returned
shared state is rebuilt field by field from what the loop body leaves in
each shared cell. -/
def monitor_step (s : SharedState) (m : MonitorState) (elapsed : Rat) :
    SharedState × MonitorState × Rat :=
  let current_count := s.hashCount
  let hash_diff := current_count - m.lastCount
  let rate := (hash_diff : Rat) / elapsed / 1000000
  let rates := m.rates ++ [rate]
  let rates := if MAX_RATES_BUFFER < rates.length then rates.tail else rates
  let avg := rates.foldl (fun a r => a + r) 0 / (rates.length : Rat)
  (⟨s.hashCount, s.latestNonce, s.found, s.result⟩, ⟨current_count, rates⟩, avg)

/-- Iterating the monitor loop over a list of sampling intervals. -/
def monitor_run (s : SharedState) (m : MonitorState) :
    List Rat → SharedState × MonitorState
  | [] => (s, m)
  | dt :: rest =>
    let r := monitor_step s m dt
    monitor_run r.1 r.2.1 rest

example : leadingZeros64 0 = 64 := by decide
example : leadingZeros64 1 = 63 := by decide
example : count_leading_hex_zeros (15 :: List.replicate 31 255) = 1 := by decide
example : count_leading_hex_zeros (List.replicate 32 0) = 32 := by decide
example : naive_hex_zeros (List.replicate 32 0) = 64 := by decide
example : accepts_main (15 :: List.replicate 31 255) 0 = false := by decide


theorem szAux_zero (fuel : Nat) : szAux fuel 0 = 0 := by
  cases fuel <;> simp [szAux]

theorem szAux_le (fuel n : Nat) : szAux fuel n ≤ fuel := by
  induction fuel generalizing n with
  | zero => simp [szAux]
  | succ f ih =>
    simp only [szAux]
    split
    · exact Nat.zero_le _
    · exact Nat.succ_le_succ (ih _)

theorem szAux_pos (fuel n : Nat) (hn : n ≠ 0) (hf : fuel ≠ 0) :
    1 ≤ szAux fuel n := by
  cases fuel with
  | zero => exact absurd rfl hf
  | succ f => simp [szAux, hn]

theorem lt_two_pow_szAux (fuel n : Nat) (h : n < 2 ^ fuel) :
    n < 2 ^ szAux fuel n := by
  induction fuel generalizing n with
  | zero =>
    have : n = 0 := by omega
    subst this; simp [szAux]
  | succ f ih =>
    simp only [szAux]
    split
    · omega
    · have hdiv : n / 2 < 2 ^ f := by
        have h2 : n < 2 ^ f * 2 := by rw [← Nat.pow_succ]; exact h
        exact (Nat.div_lt_iff_lt_mul (by omega)).mpr h2
      have h2 := ih _ hdiv
      have : n < 2 * (n / 2) + 2 := by omega
      calc n < 2 * (n / 2) + 2 := this
      _ = 2 * (n / 2 + 1) := by ring
      _ ≤ 2 * 2 ^ szAux f (n / 2) := by
          exact Nat.mul_le_mul_left 2 h2
      _ = 2 ^ (szAux f (n / 2) + 1) := by rw [Nat.pow_succ]; ring

theorem two_pow_pred_szAux_le (fuel n : Nat) (hn : n ≠ 0) (h : n < 2 ^ fuel) :
    2 ^ (szAux fuel n - 1) ≤ n := by
  induction fuel generalizing n with
  | zero => omega
  | succ f ih =>
    simp only [szAux, hn, if_false]
    by_cases hd : n / 2 = 0
    · rw [hd, szAux_zero]
      omega
    · have hdiv : n / 2 < 2 ^ f := by
        have h2 : n < 2 ^ f * 2 := by rw [← Nat.pow_succ]; exact h
        exact (Nat.div_lt_iff_lt_mul (by omega)).mpr h2
      have h2 := ih _ hd hdiv
      have hpos : 1 ≤ szAux f (n / 2) :=
        szAux_pos _ _ hd (by rintro rfl; simp [szAux] at *; omega)
      have : szAux f (n / 2) + 1 - 1 = (szAux f (n / 2) - 1) + 1 := by omega
      rw [this, Nat.pow_succ]
      calc 2 ^ (szAux f (n / 2) - 1) * 2 ≤ n / 2 * 2 :=
            Nat.mul_le_mul_right 2 h2
      _ ≤ n := by omega

theorem naive_hex_zeros_eq (digest : List Nat) :
    naive_hex_zeros digest = lzCount (nibbles digest) := rfl

theorem lzCount_le (l : List Nat) : lzCount l ≤ l.length :=
  List.Sublist.length_le (List.takeWhile_sublist _)

theorem lzCount_cons_zero (l : List Nat) : lzCount (0 :: l) = lzCount l + 1 := by
  simp [lzCount, List.takeWhile]

theorem lzCount_cons_ne (d : Nat) (l : List Nat) (hd : d ≠ 0) :
    lzCount (d :: l) = 0 := by
  simp [lzCount, List.takeWhile_cons, hd]

theorem lzCount_eq_length_of_all_zero (l : List Nat) (h : ∀ d ∈ l, d = 0) :
    lzCount l = l.length := by
  induction l with
  | nil => rfl
  | cons d rest ih =>
    have hd : d = 0 := h d (by simp)
    subst hd
    rw [lzCount_cons_zero, ih fun x hx => h x (by simp [hx])]
    simp

theorem all_zero_of_lzCount_eq_length (l : List Nat) (h : lzCount l = l.length) :
    ∀ d ∈ l, d = 0 := by
  induction l with
  | nil => simp
  | cons d rest ih =>
    by_cases hd : d = 0
    · subst hd
      rw [lzCount_cons_zero] at h
      simp only [List.length_cons] at h
      intro x hx
      rcases List.mem_cons.mp hx with h' | h'
      · exact h'
      · exact ih (by omega) x h'
    · rw [lzCount_cons_ne d rest hd] at h
      simp at h

theorem lzCount_append_of_lt (A B : List Nat) (h : lzCount A < A.length) :
    lzCount (A ++ B) = lzCount A := by
  induction A with
  | nil => simp at h
  | cons d rest ih =>
    by_cases hd : d = 0
    · subst hd
      rw [List.cons_append, lzCount_cons_zero, lzCount_cons_zero]
      rw [lzCount_cons_zero] at h
      simp only [List.length_cons] at h
      rw [ih (by omega)]
    · rw [List.cons_append, lzCount_cons_ne d _ hd, lzCount_cons_ne d _ hd]

theorem lzCount_append_of_all_zero (A B : List Nat) (h : ∀ d ∈ A, d = 0) :
    lzCount (A ++ B) = A.length + lzCount B := by
  induction A with
  | nil => simp
  | cons d rest ih =>
    have hd : d = 0 := h d (by simp)
    subst hd
    rw [List.cons_append, lzCount_cons_zero, ih fun x hx => h x (by simp [hx])]
    simp
    omega

theorem val16_aux (l : List Nat) (a : Nat) :
    l.foldl (fun a d => 16 * a + d) a = a * 16 ^ l.length + val16 l := by
  induction l generalizing a with
  | nil => simp [val16]
  | cons d rest ih =>
    simp only [List.foldl_cons, List.length_cons, val16, Nat.mul_zero,
      Nat.zero_add]
    rw [ih (16 * a + d), ih d]
    ring

theorem val16_cons (d : Nat) (l : List Nat) :
    val16 (d :: l) = d * 16 ^ l.length + val16 l := by
  simp only [val16, List.foldl_cons]
  simpa using val16_aux l d

theorem val16_lt (l : List Nat) (h : ∀ d ∈ l, d < 16) :
    val16 l < 16 ^ l.length := by
  induction l with
  | nil => simp [val16]
  | cons d rest ih =>
    rw [val16_cons]
    have hd : d < 16 := h d (by simp)
    have hr := ih fun x hx => h x (by simp [hx])
    have h1 : d * 16 ^ rest.length + val16 rest < (d + 1) * 16 ^ rest.length := by
      rw [Nat.succ_mul]
      omega
    calc d * 16 ^ rest.length + val16 rest < (d + 1) * 16 ^ rest.length := h1
    _ ≤ 16 * 16 ^ rest.length := Nat.mul_le_mul_right _ (by omega)
    _ = 16 ^ (rest.length + 1) := by rw [Nat.pow_succ]; ring
    _ = 16 ^ (d :: rest).length := by simp

theorem val16_eq_zero_iff (l : List Nat) : val16 l = 0 ↔ ∀ d ∈ l, d = 0 := by
  induction l with
  | nil => simp [val16]
  | cons d rest ih =>
    rw [val16_cons]
    constructor
    · intro h
      have hd : d = 0 := by
        have := Nat.pos_pow_of_pos rest.length (show 0 < 16 by omega)
        rcases Nat.eq_zero_of_add_eq_zero_right h with h'
        rcases Nat.mul_eq_zero.mp h' with h2 | h2
        · exact h2
        · omega
      have hr : val16 rest = 0 := by omega
      intro x hx
      rcases List.mem_cons.mp hx with h' | h'
      · omega
      · exact ih.mp hr x h'
    · intro h
      have hd : d = 0 := h d (by simp)
      have hr : val16 rest = 0 := ih.mpr fun x hx => h x (by simp [hx])
      simp [hd, hr]

/-- If the digits are nibbles and the value is nonzero, the value sits between
consecutive powers of 16 determined by the leading-zero count. -/
theorem val16_bounds (L : List Nat) (hd : ∀ d ∈ L, d < 16) (hv : val16 L ≠ 0) :
    16 ^ (L.length - lzCount L - 1) ≤ val16 L ∧
      val16 L < 16 ^ (L.length - lzCount L) := by
  induction L with
  | nil => simp [val16] at hv
  | cons d rest ih =>
    by_cases hd0 : d = 0
    · subst hd0
      rw [val16_cons] at hv ⊢
      simp only [Nat.zero_mul, Nat.zero_add] at hv ⊢
      have := ih (fun x hx => hd x (by simp [hx])) hv
      rw [lzCount_cons_zero]
      simp only [List.length_cons]
      have hlt : lzCount rest < rest.length := by
        by_contra hge
        have heq : lzCount rest = rest.length := by
          have := lzCount_le rest; omega
        exact hv ((val16_eq_zero_iff rest).mpr
          (all_zero_of_lzCount_eq_length rest heq))
      have e1 : rest.length + 1 - (lzCount rest + 1) - 1
          = rest.length - lzCount rest - 1 := by omega
      have e2 : rest.length + 1 - (lzCount rest + 1)
          = rest.length - lzCount rest := by omega
      rw [e1, e2]
      exact this
    · rw [lzCount_cons_ne d rest hd0, val16_cons]
      simp only [List.length_cons, Nat.sub_zero]
      have hrest : val16 rest < 16 ^ rest.length :=
        val16_lt rest fun x hx => hd x (by simp [hx])
      have hdlt : d < 16 := hd d (by simp)
      constructor
      · have e : rest.length + 1 - 1 = rest.length := by omega
        rw [e]
        have : 1 * 16 ^ rest.length ≤ d * 16 ^ rest.length :=
          Nat.mul_le_mul_right _ (by omega)
        omega
      · have h1 : d * 16 ^ rest.length + val16 rest < (d + 1) * 16 ^ rest.length := by
          rw [Nat.succ_mul]; omega
        calc d * 16 ^ rest.length + val16 rest < (d + 1) * 16 ^ rest.length := h1
        _ ≤ 16 * 16 ^ rest.length := Nat.mul_le_mul_right _ (by omega)
        _ = 16 ^ (rest.length + 1) := by rw [Nat.pow_succ]; ring

theorem nibbles_append (A B : List Nat) :
    nibbles (A ++ B) = nibbles A ++ nibbles B := by
  induction A with
  | nil => simp [nibbles]
  | cons d rest ih => simp [nibbles, ih]

theorem length_nibbles (l : List Nat) : (nibbles l).length = 2 * l.length := by
  induction l with
  | nil => simp [nibbles]
  | cons d rest ih => simp [nibbles, ih]; omega

theorem nibbles_lt (l : List Nat) (h : ∀ b ∈ l, b < 256) :
    ∀ d ∈ nibbles l, d < 16 := by
  induction l with
  | nil => simp [nibbles]
  | cons b rest ih =>
    intro d hdmem
    simp only [nibbles, List.mem_cons] at hdmem
    have hb : b < 256 := h b (by simp)
    rcases hdmem with h' | h' | h'
    · subst h'; omega
    · subst h'; omega
    · exact ih (fun x hx => h x (by simp [hx])) d h'

theorem val16_nibbles (l : List Nat) : val16 (nibbles l) = valBE l := by
  suffices h : ∀ a : Nat, (nibbles l).foldl (fun a d => 16 * a + d) a
      = l.foldl (fun a b => 256 * a + b) a by
    simpa [val16, valBE] using h 0
  induction l with
  | nil => intro a; simp [nibbles]
  | cons b rest ih =>
    intro a
    simp only [nibbles, List.foldl_cons]
    rw [ih]
    congr 1
    omega

theorem szAux_eq_zero_iff (n : Nat) : szAux 64 n = 0 ↔ n = 0 := by
  constructor
  · intro h
    by_contra hn
    have := szAux_pos 64 n hn (by omega)
    omega
  · rintro rfl
    exact szAux_zero 64

/-- The word-level shortcut agrees with the nibble scan on one 8-byte word. -/
theorem word_count_eq (B : List Nat) (hlen : B.length = 8)
    (hb : ∀ b ∈ B, b < 256) :
    leadingZeros64 (valBE B) / 4 = lzCount (nibbles B) := by
  set L := nibbles B with hL
  have hLlen : L.length = 16 := by rw [hL, length_nibbles, hlen]
  have hLd : ∀ d ∈ L, d < 16 := nibbles_lt B hb
  have hval : val16 L = valBE B := val16_nibbles B
  by_cases hv : valBE B = 0
  · rw [hv]
    have : leadingZeros64 0 = 64 := by decide
    rw [this]
    have hz : ∀ d ∈ L, d = 0 := (val16_eq_zero_iff L).mp (by rw [hval, hv])
    rw [lzCount_eq_length_of_all_zero L hz, hLlen]
  · have hvL : val16 L ≠ 0 := by rw [hval]; exact hv
    have hub : valBE B < 2 ^ 64 := by
      have := val16_lt L hLd
      rw [hval, hLlen] at this
      calc valBE B < 16 ^ 16 := this
      _ = 2 ^ 64 := by norm_num
    set s := szAux 64 (valBE B) with hs
    have hs1 : 1 ≤ s := szAux_pos 64 _ hv (by omega)
    have hs64 : s ≤ 64 := szAux_le 64 _
    have hvlt : valBE B < 2 ^ s := lt_two_pow_szAux 64 _ hub
    have hvge : 2 ^ (s - 1) ≤ valBE B := two_pow_pred_szAux_le 64 _ hv hub
    obtain ⟨hlow, hhigh⟩ := val16_bounds L hLd hvL
    rw [hval, hLlen] at hlow hhigh
    have hclt : lzCount L < 16 := by
      have hle := lzCount_le L
      rw [hLlen] at hle
      rcases Nat.lt_or_ge (lzCount L) 16 with h | h
      · exact h
      · exfalso
        have : lzCount L = L.length := by omega
        exact hvL ((val16_eq_zero_iff L).mpr (all_zero_of_lzCount_eq_length L this))
    set c := lzCount L with hc
    have e16 : ∀ k : Nat, (16 : Nat) ^ k = 2 ^ (4 * k) := by
      intro k
      rw [show (16 : Nat) = 2 ^ 4 by norm_num, ← Nat.pow_mul]
    rw [e16] at hlow hhigh
    -- exponent comparisons
    have hA : 4 * (16 - c - 1) < s := by
      have : 2 ^ (4 * (16 - c - 1)) < 2 ^ s := Nat.lt_of_le_of_lt hlow hvlt
      exact (Nat.pow_lt_pow_iff_right (by omega)).mp this
    have hB' : s - 1 < 4 * (16 - c) := by
      have : 2 ^ (s - 1) < 2 ^ (4 * (16 - c)) := Nat.lt_of_le_of_lt hvge hhigh
      exact (Nat.pow_lt_pow_iff_right (by omega)).mp this
    show (64 - s) / 4 = c
    omega

/-- C9 helper: the two accept predicates in relation to the count. -/
theorem count_leading_hex_zeros_take16 (h : List Nat) :
    count_leading_hex_zeros h = count_leading_hex_zeros (h.take 16) := by
  have e1 : (h.take 16).take 8 = h.take 8 := by
    simp [List.take_take]
  have e2 : ((h.take 16).drop 8).take 8 = (h.drop 8).take 8 := by
    simp [List.drop_take, List.take_take]
  simp only [count_leading_hex_zeros, e1, e2]

/-- C9: `count_leading_hex_zeros` yields at most 32, and its value is a
function of the first 16 bytes alone: two digests of length at least 16
agreeing on bytes `0..16` get the same count. -/
theorem count_leading_hex_zeros_range_and_deps (h1 h2 : List Nat)
    (hl1 : 16 ≤ h1.length) (hl2 : 16 ≤ h2.length)
    (hagree : h1.take 16 = h2.take 16) :
    count_leading_hex_zeros h1 ≤ 32 ∧
      count_leading_hex_zeros h1 = count_leading_hex_zeros h2 := by
  constructor
  · simp only [count_leading_hex_zeros]
    have t1 : leadingZeros64 (valBE (h1.take 8)) / 4 ≤ 16 := by
      unfold leadingZeros64; omega
    have t2 : leadingZeros64 (valBE ((h1.drop 8).take 8)) / 4 ≤ 16 := by
      unfold leadingZeros64; omega
    split <;> omega
  · rw [count_leading_hex_zeros_take16 h1, count_leading_hex_zeros_take16 h2,
      hagree]

/-- Witness for C9 at two concrete digests agreeing on their first 16 bytes. -/
theorem count_leading_hex_zeros_range_and_deps_test :
    count_leading_hex_zeros (List.replicate 16 0 ++ List.replicate 16 255) ≤ 32 ∧
      count_leading_hex_zeros (List.replicate 16 0 ++ List.replicate 16 255)
        = count_leading_hex_zeros (List.replicate 32 0) :=
  count_leading_hex_zeros_range_and_deps
    (List.replicate 16 0 ++ List.replicate 16 255) (List.replicate 32 0)
    (by decide) (by decide) (by decide)

/-- C2 counterexample: on the all-zero digest the two-word shortcut stops at
32 nibbles while the naive full-digest scan reports 64. -/
theorem shortcut_ne_naive_on_zero_digest :
    count_leading_hex_zeros (List.replicate 32 0)
      ≠ naive_hex_zeros (List.replicate 32 0) := by decide

/-- On a 32-byte digest the two-word shortcut equals the naive
nibble-by-nibble scan capped at 32. -/
theorem count_min_naive_aux (digest : List Nat)
    (hlen : digest.length = 32) (hb : ∀ b ∈ digest, b < 256) :
    count_leading_hex_zeros digest = min (naive_hex_zeros digest) 32 := by
  set B0 := digest.take 8 with hB0
  set B1 := (digest.drop 8).take 8 with hB1
  set R := digest.drop 16 with hR
  have hlB0 : B0.length = 8 := by
    rw [hB0, List.length_take, hlen]
    decide
  have hlB1 : B1.length = 8 := by
    rw [hB1, List.length_take, List.length_drop, hlen]
    decide
  have hbB0 : ∀ b ∈ B0, b < 256 := fun b hbm => hb b (List.take_subset 8 digest hbm)
  have hbB1 : ∀ b ∈ B1, b < 256 := fun b hbm =>
    hb b (List.drop_subset 8 digest (List.take_subset 8 _ hbm))
  have hsplit : digest = B0 ++ (B1 ++ R) := by
    rw [hB0, hB1, hR]
    rw [← List.drop_drop 8 8 digest]
    rw [List.take_append_drop, List.take_append_drop]
  have hn0len : (nibbles B0).length = 16 := by rw [length_nibbles, hlB0]
  have hn1len : (nibbles B1).length = 16 := by rw [length_nibbles, hlB1]
  have hnaive : naive_hex_zeros digest
      = lzCount (nibbles B0 ++ (nibbles B1 ++ nibbles R)) := by
    rw [naive_hex_zeros_eq]
    conv_lhs => rw [hsplit]
    rw [nibbles_append, nibbles_append]
  have c0 : leadingZeros64 (valBE B0) / 4 = lzCount (nibbles B0) :=
    word_count_eq B0 hlB0 hbB0
  have c1 : leadingZeros64 (valBE B1) / 4 = lzCount (nibbles B1) :=
    word_count_eq B1 hlB1 hbB1
  simp only [count_leading_hex_zeros, ← hB0, ← hB1, c0, c1, hnaive]
  by_cases hz : lzCount (nibbles B0) = 16
  · rw [if_pos hz]
    have hall0 : ∀ d ∈ nibbles B0, d = 0 :=
      all_zero_of_lzCount_eq_length _ (by rw [hz, hn0len])
    rw [lzCount_append_of_all_zero _ _ hall0, hn0len]
    by_cases hz1 : lzCount (nibbles B1) = 16
    · have hall1 : ∀ d ∈ nibbles B1, d = 0 :=
        all_zero_of_lzCount_eq_length _ (by rw [hz1, hn1len])
      rw [lzCount_append_of_all_zero _ _ hall1, hn1len, hz1]
      omega
    · have hlt1 : lzCount (nibbles B1) < 16 := by
        have := lzCount_le (nibbles B1)
        rw [hn1len] at this
        omega
      rw [lzCount_append_of_lt _ _ (by rw [hn1len]; exact hlt1)]
      omega
  · rw [if_neg hz]
    have hlt : lzCount (nibbles B0) < 16 := by
      have := lzCount_le (nibbles B0)
      rw [hn0len] at this
      omega
    rw [lzCount_append_of_lt _ _ (by rw [hn0len]; exact hlt)]
    omega

/-- C2 (amended): on a 32-byte digest the two-word shortcut equals the
naive nibble-by-nibble scan capped at 32, so the two counts are identical
exactly when the naive full-digest count is at most 32. -/
theorem count_leading_hex_zeros_eq_min_naive (digest : List Nat)
    (hlen : digest.length = 32) (hb : ∀ b ∈ digest, b < 256) :
    count_leading_hex_zeros digest = min (naive_hex_zeros digest) 32 ∧
      (count_leading_hex_zeros digest = naive_hex_zeros digest ↔
        naive_hex_zeros digest ≤ 32) := by
  have h := count_min_naive_aux digest hlen hb
  exact ⟨h, by omega⟩

/-- Witness for the amended C2 theorem at a concrete digest. -/
theorem count_leading_hex_zeros_eq_min_naive_test :
    (count_leading_hex_zeros (15 :: List.replicate 31 255)
        = min (naive_hex_zeros (15 :: List.replicate 31 255)) 32) ∧
      (count_leading_hex_zeros (15 :: List.replicate 31 255)
          = naive_hex_zeros (15 :: List.replicate 31 255) ↔
        naive_hex_zeros (15 :: List.replicate 31 255) ≤ 32) :=
  count_leading_hex_zeros_eq_min_naive (15 :: List.replicate 31 255)
    (by decide) (by decide)

/-- C1 counterexample: in `src/main.rs` the acceptance test is strict
equality, so a digest with one leading zero nibble is rejected at target 0
even though its count is ≥ 0. -/
theorem accepts_main_not_geq_rule :
    ¬ (accepts_main (15 :: List.replicate 31 255) 0 = true ↔
        0 ≤ count_leading_hex_zeros (15 :: List.replicate 31 255)) := by
  decide

/-- C1 (amended): the `src/8_main.rs` worker accepts a digest exactly when
the computed count is ≥ the target, while the `src/main.rs` worker accepts
exactly when the count equals the target. -/
theorem accepts_iff_count (hash : List Nat) (target : Nat) :
    (accepts_8 hash target = true ↔ target ≤ count_leading_hex_zeros hash) ∧
      (accepts_main hash target = true ↔ count_leading_hex_zeros hash = target) := by
  constructor
  · simp [accepts_8]
  · simp [accepts_main]

theorem length_toBeBytes (k n : Nat) : (toBeBytes k n).length = k := by
  induction k generalizing n with
  | zero => rfl
  | succ k ih => simp [toBeBytes, ih]

theorem length_toBe8 (n : Nat) : (toBe8 n).length = 8 := length_toBeBytes 8 n

theorem valBE_aux (l : List Nat) (a : Nat) :
    l.foldl (fun a b => 256 * a + b) a = a * 256 ^ l.length + valBE l := by
  induction l generalizing a with
  | nil => simp [valBE]
  | cons d rest ih =>
    simp only [List.foldl_cons, List.length_cons, valBE, Nat.mul_zero,
      Nat.zero_add]
    rw [ih (256 * a + d), ih d]
    ring

theorem valBE_cons (d : Nat) (l : List Nat) :
    valBE (d :: l) = d * 256 ^ l.length + valBE l := by
  simp only [valBE, List.foldl_cons]
  simpa using valBE_aux l d

theorem valBE_toBeBytes (k n : Nat) : valBE (toBeBytes k n) = n % 256 ^ k := by
  induction k generalizing n with
  | zero => simp [toBeBytes, valBE, Nat.mod_one]
  | succ k ih =>
    show valBE (n / 256 ^ k % 256 :: toBeBytes k n) = n % 256 ^ (k + 1)
    rw [valBE_cons, length_toBeBytes, ih]
    have hpow : (256 : Nat) ^ (k + 1) = 256 ^ k * 256 := Nat.pow_succ 256 k
    have h1 : n / 256 ^ k % 256 = n % 256 ^ (k + 1) / 256 ^ k := by
      rw [hpow]
      exact (Nat.mod_mul_right_div_self n (256 ^ k) 256).symm
    have h2 : n % 256 ^ k = n % 256 ^ (k + 1) % 256 ^ k :=
      (Nat.mod_mod_of_dvd n (pow_dvd_pow 256 (Nat.le_succ k))).symm
    rw [h1, h2]
    exact Nat.div_add_mod' (n % 256 ^ (k + 1)) (256 ^ k)

theorem valBE_toBe8 (n : Nat) (h : n < 2 ^ 64) : valBE (toBe8 n) = n := by
  rw [toBe8, valBE_toBeBytes]
  have h8 : (256 : Nat) ^ 8 = 2 ^ 64 := by norm_num
  rw [h8]
  exact Nat.mod_eq_of_lt h

theorem setRange_at (A B C v : List Nat) (k : Nat) (hA : A.length = k)
    (hv : v.length = B.length) :
    setRange (A ++ B ++ C) k v = A ++ v ++ C := by
  subst hA
  unfold setRange
  have h1 : (A ++ B ++ C).take A.length = A := by
    rw [List.append_assoc, List.take_left]
  have h2 : (A ++ B ++ C).drop (A.length + v.length) = C := by
    rw [hv, ← List.length_append A B, List.drop_left]
  rw [h1, h2]

theorem setRange_start (B C v : List Nat) (hv : v.length = B.length) :
    setRange (B ++ C) 0 v = v ++ C := by
  have h := setRange_at [] B C v 0 rfl hv
  simpa using h

theorem setRange_end (A B v : List Nat) (k : Nat) (hA : A.length = k)
    (hv : v.length = B.length) :
    setRange (A ++ B) k v = A ++ v := by
  have h := setRange_at A B [] v k hA hv
  simpa using h

theorem build_prefix_bytes_eq (index : Nat) (prev_hash : List Nat)
    (hph : prev_hash.length = 32) :
    build_prefix_bytes index prev_hash
      = [0, 0, 0, 5] ++ toBe8 index ++ [0, 0, 0, 14, 0, 0, 0, 4] ++ MESSAGE
          ++ [0, 0, 0, 13, 0, 0, 0, 32] ++ prev_hash ++ [0, 0, 0, 5] := by
  have s1 : setRange (List.replicate 68 (0 : Nat)) 0 [0, 0, 0, 5]
      = [0, 0, 0, 5] ++ List.replicate 64 0 := by
    have h : List.replicate 68 (0 : Nat)
        = List.replicate 4 0 ++ List.replicate 64 0 := by
      rw [← List.replicate_add]
    rw [h]
    exact setRange_start _ _ _ (by simp)
  have s2 : setRange ([0, 0, 0, 5] ++ List.replicate 64 (0 : Nat)) 4
      (toBe8 index) = [0, 0, 0, 5] ++ toBe8 index ++ List.replicate 56 0 := by
    have h : [0, 0, 0, 5] ++ List.replicate 64 (0 : Nat)
        = [0, 0, 0, 5] ++ List.replicate 8 0 ++ List.replicate 56 0 := by
      rw [List.append_assoc, ← List.replicate_add]
    rw [h]
    exact setRange_at _ _ _ _ 4 (by simp) (by simp [length_toBe8])
  have s3 : setRange ([0, 0, 0, 5] ++ toBe8 index ++ List.replicate 56 (0 : Nat))
      12 [0, 0, 0, 14, 0, 0, 0, 4]
      = [0, 0, 0, 5] ++ toBe8 index ++ [0, 0, 0, 14, 0, 0, 0, 4]
          ++ List.replicate 48 0 := by
    have h : [0, 0, 0, 5] ++ toBe8 index ++ List.replicate 56 (0 : Nat)
        = ([0, 0, 0, 5] ++ toBe8 index) ++ List.replicate 8 0
            ++ List.replicate 48 0 := by
      rw [List.append_assoc ([0, 0, 0, 5] ++ toBe8 index), ← List.replicate_add]
    rw [h]
    exact setRange_at _ _ _ _ 12 (by simp [length_toBe8]) (by simp)
  have s4 : setRange ([0, 0, 0, 5] ++ toBe8 index ++ [0, 0, 0, 14, 0, 0, 0, 4]
      ++ List.replicate 48 (0 : Nat)) 20 MESSAGE
      = [0, 0, 0, 5] ++ toBe8 index ++ [0, 0, 0, 14, 0, 0, 0, 4] ++ MESSAGE
          ++ List.replicate 44 0 := by
    have h : [0, 0, 0, 5] ++ toBe8 index ++ [0, 0, 0, 14, 0, 0, 0, 4]
        ++ List.replicate 48 (0 : Nat)
        = ([0, 0, 0, 5] ++ toBe8 index ++ [0, 0, 0, 14, 0, 0, 0, 4])
            ++ List.replicate 4 0 ++ List.replicate 44 0 := by
      rw [List.append_assoc ([0, 0, 0, 5] ++ toBe8 index ++ [0, 0, 0, 14, 0, 0, 0, 4]),
        ← List.replicate_add]
    rw [h]
    exact setRange_at _ _ _ _ 20 (by simp [length_toBe8]) (by simp [MESSAGE])
  have s5 : setRange ([0, 0, 0, 5] ++ toBe8 index ++ [0, 0, 0, 14, 0, 0, 0, 4]
      ++ MESSAGE ++ List.replicate 44 (0 : Nat)) 24 [0, 0, 0, 13, 0, 0, 0, 32]
      = [0, 0, 0, 5] ++ toBe8 index ++ [0, 0, 0, 14, 0, 0, 0, 4] ++ MESSAGE
          ++ [0, 0, 0, 13, 0, 0, 0, 32] ++ List.replicate 36 0 := by
    have h : [0, 0, 0, 5] ++ toBe8 index ++ [0, 0, 0, 14, 0, 0, 0, 4]
        ++ MESSAGE ++ List.replicate 44 (0 : Nat)
        = ([0, 0, 0, 5] ++ toBe8 index ++ [0, 0, 0, 14, 0, 0, 0, 4] ++ MESSAGE)
            ++ List.replicate 8 0 ++ List.replicate 36 0 := by
      rw [List.append_assoc ([0, 0, 0, 5] ++ toBe8 index
        ++ [0, 0, 0, 14, 0, 0, 0, 4] ++ MESSAGE), ← List.replicate_add]
    rw [h]
    exact setRange_at _ _ _ _ 24 (by simp [length_toBe8, MESSAGE]) (by simp)
  have s6 : setRange ([0, 0, 0, 5] ++ toBe8 index ++ [0, 0, 0, 14, 0, 0, 0, 4]
      ++ MESSAGE ++ [0, 0, 0, 13, 0, 0, 0, 32] ++ List.replicate 36 (0 : Nat))
      32 prev_hash
      = [0, 0, 0, 5] ++ toBe8 index ++ [0, 0, 0, 14, 0, 0, 0, 4] ++ MESSAGE
          ++ [0, 0, 0, 13, 0, 0, 0, 32] ++ prev_hash ++ List.replicate 4 0 := by
    have h : [0, 0, 0, 5] ++ toBe8 index ++ [0, 0, 0, 14, 0, 0, 0, 4]
        ++ MESSAGE ++ [0, 0, 0, 13, 0, 0, 0, 32] ++ List.replicate 36 (0 : Nat)
        = ([0, 0, 0, 5] ++ toBe8 index ++ [0, 0, 0, 14, 0, 0, 0, 4] ++ MESSAGE
            ++ [0, 0, 0, 13, 0, 0, 0, 32]) ++ List.replicate 32 0
            ++ List.replicate 4 0 := by
      rw [List.append_assoc ([0, 0, 0, 5] ++ toBe8 index
        ++ [0, 0, 0, 14, 0, 0, 0, 4] ++ MESSAGE ++ [0, 0, 0, 13, 0, 0, 0, 32]),
        ← List.replicate_add]
    rw [h]
    exact setRange_at _ _ _ _ 32 (by simp [length_toBe8, MESSAGE])
      (by simp [hph])
  have s7 : setRange ([0, 0, 0, 5] ++ toBe8 index ++ [0, 0, 0, 14, 0, 0, 0, 4]
      ++ MESSAGE ++ [0, 0, 0, 13, 0, 0, 0, 32] ++ prev_hash
      ++ List.replicate 4 (0 : Nat)) 64 [0, 0, 0, 5]
      = [0, 0, 0, 5] ++ toBe8 index ++ [0, 0, 0, 14, 0, 0, 0, 4] ++ MESSAGE
          ++ [0, 0, 0, 13, 0, 0, 0, 32] ++ prev_hash ++ [0, 0, 0, 5] :=
    setRange_end _ _ _ 64 (by simp [length_toBe8, MESSAGE, hph]) (by simp)
  show setRange (setRange (setRange (setRange (setRange (setRange (setRange
    (List.replicate 68 0) 0 [0, 0, 0, 5]) 4 (toBe8 index)) 12
    [0, 0, 0, 14, 0, 0, 0, 4]) 20 MESSAGE) 24 [0, 0, 0, 13, 0, 0, 0, 32]) 32
    prev_hash) 64 [0, 0, 0, 5] = _
  rw [s1, s2, s3, s4, s5, s6, s7]

theorem length_build_prefix_bytes (index : Nat) (prev_hash : List Nat)
    (hph : prev_hash.length = 32) :
    (build_prefix_bytes index prev_hash).length = 68 := by
  rw [build_prefix_bytes_eq index prev_hash hph]
  simp [length_toBe8, MESSAGE, hph]

theorem build_suffix_bytes_eq :
    build_suffix_bytes = [0, 0, 0, 18, 0, 0, 0, 0, 0, 0, 0, 0] ++ MINER := by
  decide

theorem hasher_buffer_init_eq (index : Nat) (prev_hash : List Nat)
    (hph : prev_hash.length = 32) :
    hasher_buffer_init index prev_hash
      = build_prefix_bytes index prev_hash ++ List.replicate 8 0
          ++ build_suffix_bytes := by
  have s1 : setRange (List.replicate 120 (0 : Nat)) 0
      (build_prefix_bytes index prev_hash)
      = build_prefix_bytes index prev_hash ++ List.replicate 52 0 := by
    have h : List.replicate 120 (0 : Nat)
        = List.replicate 68 0 ++ List.replicate 52 0 := by
      rw [← List.replicate_add]
    rw [h]
    exact setRange_start _ _ _
      (by simp [length_build_prefix_bytes index prev_hash hph])
  have s2 : setRange (build_prefix_bytes index prev_hash
      ++ List.replicate 52 (0 : Nat)) 76 build_suffix_bytes
      = build_prefix_bytes index prev_hash ++ List.replicate 8 0
          ++ build_suffix_bytes := by
    have h : build_prefix_bytes index prev_hash ++ List.replicate 52 (0 : Nat)
        = (build_prefix_bytes index prev_hash ++ List.replicate 8 0)
            ++ List.replicate 44 0 := by
      rw [List.append_assoc, ← List.replicate_add]
    rw [h]
    exact setRange_end _ _ _ 76
      (by simp [length_build_prefix_bytes index prev_hash hph]) (by decide)
  show setRange (setRange (List.replicate 120 0) 0
    (build_prefix_bytes index prev_hash)) 76 build_suffix_bytes = _
  rw [s1, s2]

/-- C4: the encoded preimage template of `src/main.rs` is
prefix ++ nonce slot ++ suffix with the exact tagged layout, the total
length is `prefix_len + 8 + suffix_len`, and the nonce slot offset used for
every nonce write equals the prefix length. -/
theorem template_layout (index : Nat) (prev_hash : List Nat)
    (hph : prev_hash.length = 32) :
    build_prefix_bytes index prev_hash
        = [0, 0, 0, 5] ++ toBe8 index ++ [0, 0, 0, 14, 0, 0, 0, 4] ++ MESSAGE
            ++ [0, 0, 0, 13, 0, 0, 0, 32] ++ prev_hash ++ [0, 0, 0, 5] ∧
      (build_prefix_bytes index prev_hash).length = 68 ∧
      build_suffix_bytes = [0, 0, 0, 18, 0, 0, 0, 0, 0, 0, 0, 0] ++ MINER ∧
      build_suffix_bytes.length = 44 ∧
      hasher_buffer_init index prev_hash
        = build_prefix_bytes index prev_hash ++ List.replicate 8 0
            ++ build_suffix_bytes ∧
      (hasher_buffer_init index prev_hash).length = 68 + 8 + 44 ∧
      NONCE_OFFSET = (build_prefix_bytes index prev_hash).length := by
  have h1 := build_prefix_bytes_eq index prev_hash hph
  have h2 := length_build_prefix_bytes index prev_hash hph
  have h5 := hasher_buffer_init_eq index prev_hash hph
  refine ⟨h1, h2, build_suffix_bytes_eq, by decide, h5, ?_, ?_⟩
  · rw [h5]
    simp [h2]
    decide
  · rw [h2]
    decide

/-- Witness for C4 at `index = 1360` and an all-zero previous hash. -/
theorem template_layout_test :
    build_prefix_bytes 1360 (List.replicate 32 0)
        = [0, 0, 0, 5] ++ toBe8 1360 ++ [0, 0, 0, 14, 0, 0, 0, 4] ++ MESSAGE
            ++ [0, 0, 0, 13, 0, 0, 0, 32] ++ List.replicate 32 0
            ++ [0, 0, 0, 5] ∧
      (build_prefix_bytes 1360 (List.replicate 32 0)).length = 68 ∧
      build_suffix_bytes = [0, 0, 0, 18, 0, 0, 0, 0, 0, 0, 0, 0] ++ MINER ∧
      build_suffix_bytes.length = 44 ∧
      hasher_buffer_init 1360 (List.replicate 32 0)
        = build_prefix_bytes 1360 (List.replicate 32 0) ++ List.replicate 8 0
            ++ build_suffix_bytes ∧
      (hasher_buffer_init 1360 (List.replicate 32 0)).length = 68 + 8 + 44 ∧
      NONCE_OFFSET = (build_prefix_bytes 1360 (List.replicate 32 0)).length :=
  template_layout 1360 (List.replicate 32 0) (by decide)

/-- C6 (amended): in `src/main.rs`, on every worker iteration the evaluated
digest is the hash of the buffer in which only the 8-byte nonce slot was
overwritten with the big-endian nonce: every byte outside `[68, 76)` equals
the corresponding template byte, the slot holds the nonce bytes, and a
further nonce write changes nothing else, so the frame also holds across
iterations. -/
theorem worker_frame (template : List Nat) (n n' : Nat)
    (hlen : template.length = 120) :
    (write_nonce template n).take 68 = template.take 68 ∧
      (write_nonce template n).drop 76 = template.drop 76 ∧
      ((write_nonce template n).drop 68).take 8 = toBe8 n ∧
      worker_digest template n = keccak256 (write_nonce template n) ∧
      write_nonce (write_nonce template n) n' = write_nonce template n' := by
  have hA : (template.take 68).length = 68 := by
    rw [List.length_take, hlen]
    decide
  have hB : ((template.drop 68).take 8).length = 8 := by
    rw [List.length_take, List.length_drop, hlen]
    decide
  have hsplit : template
      = template.take 68 ++ (template.drop 68).take 8 ++ template.drop 76 := by
    rw [List.append_assoc]
    rw [show template.drop 76 = ((template.drop 68).drop 8) by
      rw [List.drop_drop]]
    rw [List.take_append_drop, List.take_append_drop]
  have hw : write_nonce template n
      = template.take 68 ++ toBe8 n ++ template.drop 76 := by
    conv_lhs => rw [hsplit]
    exact setRange_at _ _ _ _ 68 hA (by rw [length_toBe8, hB])
  have hw' : write_nonce template n'
      = template.take 68 ++ toBe8 n' ++ template.drop 76 := by
    conv_lhs => rw [hsplit]
    exact setRange_at _ _ _ _ 68 hA (by rw [length_toBe8, hB])
  refine ⟨?_, ?_, ?_, rfl, ?_⟩
  · rw [hw, List.append_assoc, List.take_left' hA]
  · rw [hw]
    have h76 : (template.take 68 ++ toBe8 n).length = 76 := by
      rw [List.length_append, hA, length_toBe8]
    rw [List.drop_left' h76]
  · rw [hw, List.append_assoc, List.drop_left' hA, List.take_left' (length_toBe8 n)]
  · rw [hw, hw']
    exact setRange_at _ _ _ _ 68 hA (by rw [length_toBe8, length_toBe8])

set_option maxRecDepth 10000 in
/-- Witness for C6 at a concrete template and nonces 3 and 5. -/
theorem worker_frame_test :
    (write_nonce (hasher_buffer_init 0 (List.replicate 32 0)) 3).take 68
        = (hasher_buffer_init 0 (List.replicate 32 0)).take 68 ∧
      (write_nonce (hasher_buffer_init 0 (List.replicate 32 0)) 3).drop 76
        = (hasher_buffer_init 0 (List.replicate 32 0)).drop 76 ∧
      ((write_nonce (hasher_buffer_init 0 (List.replicate 32 0)) 3).drop 68).take 8
        = toBe8 3 ∧
      worker_digest (hasher_buffer_init 0 (List.replicate 32 0)) 3
        = keccak256 (write_nonce (hasher_buffer_init 0 (List.replicate 32 0)) 3) ∧
      write_nonce (write_nonce (hasher_buffer_init 0 (List.replicate 32 0)) 3) 5
        = write_nonce (hasher_buffer_init 0 (List.replicate 32 0)) 5 :=
  worker_frame (hasher_buffer_init 0 (List.replicate 32 0)) 3 5 (by decide)

set_option maxRecDepth 10000 in
/-- C6 counterexample: the `src/7_main.rs` worker hashes only the 8 nonce
bytes (its buffer update is commented out), so the digest it evaluates is
not the hash of the template buffer with the nonce slot overwritten. -/
theorem worker_digest_7_ne_buffer_hash :
    worker_digest_7 0
      ≠ keccak256 (write_nonce (hasher_buffer_init 0 (List.replicate 32 0)) 0) := by
  decide

/-- C5 counterexample: for a 2-byte message the hard-coded `[0,0,0,4]`
length tag makes re-parsing return the wrong message bytes. -/
theorem parse_message_not_inverse :
    parse_message (block_template 1360 [65, 66] (List.replicate 32 0)
        (List.replicate 32 0) 0) ≠ [65, 66] := by
  decide

/-- C5 (amended): for every input whose message is exactly 4 bytes (matching
the hard-coded length tag), re-parsing the encoded template at its declared
tag offsets recovers the original index, message and previous hash. -/
theorem parse_round_trip (index : Nat) (message prev_hash miner : List Nat)
    (nonce : Nat) (hidx : index < 2 ^ 64) (hmsg : message.length = 4)
    (hph : prev_hash.length = 32) :
    parse_index (block_template index message prev_hash miner nonce) = index ∧
      parse_message (block_template index message prev_hash miner nonce)
        = message ∧
      parse_prev_hash (block_template index message prev_hash miner nonce)
        = prev_hash := by
  have ht : block_template index message prev_hash miner nonce
      = [0, 0, 0, 5] ++ (toBe8 index ++ ([0, 0, 0, 14, 0, 0, 0, 4]
          ++ (message ++ ([0, 0, 0, 13, 0, 0, 0, 32] ++ (prev_hash
          ++ ([0, 0, 0, 5] ++ (toBe8 nonce
          ++ static_suffix_bytes miner))))))) := by
    simp [block_template, static_prefix_bytes]
  refine ⟨?_, ?_, ?_⟩
  · have h1 : parse_index (block_template index message prev_hash miner nonce)
        = valBE (toBe8 index) := by
      rw [ht]; rfl
    rw [h1]
    exact valBE_toBe8 index hidx
  · have h2 : parse_message (block_template index message prev_hash miner nonce)
        = (message ++ ([0, 0, 0, 13, 0, 0, 0, 32] ++ (prev_hash
            ++ ([0, 0, 0, 5] ++ (toBe8 nonce
            ++ static_suffix_bytes miner))))).take 4 := by
      rw [ht]; rfl
    rw [h2]
    exact List.take_left' hmsg
  · have h3 : parse_prev_hash (block_template index message prev_hash miner nonce)
        = ((message ++ ([0, 0, 0, 13, 0, 0, 0, 32] ++ (prev_hash
            ++ ([0, 0, 0, 5] ++ (toBe8 nonce
            ++ static_suffix_bytes miner))))).drop 12).take 32 := by
      rw [ht]; rfl
    rw [h3]
    rw [show (12 : Nat) = message.length + 8 by rw [hmsg]]
    rw [← List.drop_drop, List.drop_left]
    have h4 : ([0, 0, 0, 13, 0, 0, 0, 32] ++ (prev_hash ++ ([0, 0, 0, 5]
        ++ (toBe8 nonce ++ static_suffix_bytes miner)))).drop 8
        = prev_hash ++ ([0, 0, 0, 5]
            ++ (toBe8 nonce ++ static_suffix_bytes miner)) := rfl
    rw [h4]
    exact List.take_left' hph

/-- Witness for the amended C5 theorem at the spec's fixed input
`(index = 1360, message = "KALE", zero hash, zero miner)`. -/
theorem parse_round_trip_test :
    parse_index (block_template 1360 [75, 65, 76, 69] (List.replicate 32 0)
        (List.replicate 32 0) 0) = 1360 ∧
      parse_message (block_template 1360 [75, 65, 76, 69] (List.replicate 32 0)
        (List.replicate 32 0) 0) = [75, 65, 76, 69] ∧
      parse_prev_hash (block_template 1360 [75, 65, 76, 69]
        (List.replicate 32 0) (List.replicate 32 0) 0) = List.replicate 32 0 :=
  parse_round_trip 1360 [75, 65, 76, 69] (List.replicate 32 0)
    (List.replicate 32 0) 0 (by decide) (by decide) (by decide)

set_option maxRecDepth 10000 in
/-- C7: for `index = 0`, message `"TEST"`, zero previous hash and miner, the
digest of the template at the very first nonce tried by worker 0 (nonce 0)
has zero leading zero nibbles, so at difficulty target 0 both acceptance
variants accept it immediately. -/
theorem mining_scenario_one :
    nonce_8 1 0 0 = 0 ∧
      keccak256 (block_template 0 [84, 69, 83, 84] (List.replicate 32 0)
          (List.replicate 32 0) (nonce_8 1 0 0))
        = [148, 27, 219, 9, 151, 113, 33, 5, 207, 253, 112, 72, 239, 190,
           187, 166, 52, 18, 218, 36, 205, 204, 98, 29, 162, 99, 203, 212,
           204, 146, 107, 86] ∧
      count_leading_hex_zeros (keccak256 (block_template 0 [84, 69, 83, 84]
          (List.replicate 32 0) (List.replicate 32 0) (nonce_8 1 0 0))) = 0 ∧
      accepts_8 (keccak256 (block_template 0 [84, 69, 83, 84]
          (List.replicate 32 0) (List.replicate 32 0) (nonce_8 1 0 0))) 0
        = true ∧
      accepts_main (keccak256 (block_template 0 [84, 69, 83, 84]
          (List.replicate 32 0) (List.replicate 32 0) (nonce_8 1 0 0))) 0
        = true := by
  decide

/-- Closed form of the `src/8_main.rs` worker nonce sequence. -/
theorem nonce_8_closed (w t k : Nat) : nonce_8 w t k = t + k * w := by
  induction k with
  | zero => simp [nonce_8]
  | succ k ih =>
    show nonce_8 w t k + w = t + (k + 1) * w
    rw [ih]
    ring

/-- The stride progressions of `src/8_main.rs` partition the naturals: every
nonce is reached by exactly one worker at exactly one step. -/
theorem stride_partition_covers (w n : Nat) (hw : 1 ≤ w) :
    ∃ t k, t < w ∧ nonce_8 w t k = n ∧
      ∀ t' k', t' < w → nonce_8 w t' k' = n → t' = t ∧ k' = k := by
  refine ⟨n % w, n / w, Nat.mod_lt n hw, ?_, ?_⟩
  · rw [nonce_8_closed]
    exact Nat.mod_add_div' n w
  · intro t' k' ht' he
    rw [nonce_8_closed] at he
    have hmod : n % w = t' := by
      rw [← he, Nat.add_mul_mod_self_right]
      exact Nat.mod_eq_of_lt ht'
    have hdiv : n / w = k' := by
      rw [← he, Nat.add_mul_div_right _ _ (by omega), Nat.div_eq_of_lt ht']
      omega
    exact ⟨hmod.symm, hdiv.symm⟩

/-- C3: in `src/main.rs` the worker schedule is not partitioned by stride:
with two workers, worker 0 hashes nonce 1 as the second nonce of its first
batch and worker 1 hashes the same nonce 1 as the first nonce its own
batch, so the progressions overlap. -/
theorem main_workers_overlap :
    tried_main 0 0 1 = 1 ∧ tried_main 1 0 0 = 1 ∧
      tried_main 0 0 1 = tried_main 1 0 0 := by
  decide

/-- C10 counterexample: with `THREAD_COUNT = 3`, stepping from nonce 0
(residue class 0 mod 3) wraps to `u64::MAX - 2`, which is in class 1. -/
theorem next_nonce_leaves_class :
    next_nonce 3 0 % 3 ≠ 0 % 3 := by decide

/-- C10 (amended): the two-branch downward update equals wrapping
subtraction of `THREAD_COUNT` modulo `2 ^ 64`, and it preserves the nonce's
residue class mod `THREAD_COUNT` whenever `THREAD_COUNT` divides `2 ^ 64`
(the counterexample shows the class shifts otherwise, by
`2 ^ 64 mod THREAD_COUNT`, at each wrap). -/
theorem next_nonce_eq_wrapping_sub (tc nonce : Nat) (h1 : 1 ≤ tc)
    (h2 : tc ≤ 2 ^ 64) (h3 : nonce < 2 ^ 64) :
    next_nonce tc nonce = (nonce + (2 ^ 64 - tc)) % 2 ^ 64 ∧
      (2 ^ 64 % tc = 0 → next_nonce tc nonce % tc = nonce % tc) := by
  have hmain : next_nonce tc nonce = (nonce + (2 ^ 64 - tc)) % 2 ^ 64 := by
    unfold next_nonce U64_MAX
    split
    · omega
    · omega
  refine ⟨hmain, fun hdvd => ?_⟩
  rw [hmain]
  obtain ⟨c, hc⟩ : tc ∣ 2 ^ 64 := Nat.dvd_of_mod_eq_zero hdvd
  rw [Nat.mod_mod_of_dvd _ ⟨c, hc⟩]
  rcases c with _ | c'
  · omega
  · rw [Nat.mul_succ] at hc
    have h4 : 2 ^ 64 - tc = tc * c' := by omega
    rw [h4, Nat.add_mul_mod_self_left]

/-- Witness for the amended C10 theorem at `THREAD_COUNT = 4`, nonce 2. -/
theorem next_nonce_eq_wrapping_sub_test :
    next_nonce 4 2 = (2 + (2 ^ 64 - 4)) % 2 ^ 64 ∧
      (2 ^ 64 % 4 = 0 → next_nonce 4 2 % 4 = 2 % 4) :=
  next_nonce_eq_wrapping_sub 4 2 (by decide) (by norm_num) (by norm_num)

/-- C8: one monitor iteration and any run of iterations leave every shared
cell (hash counter, latest nonce, found flag, result slot) exactly as it
was: the monitor only reads shared state, so workers observe the same
shared state whether or not the monitor runs. -/
theorem monitor_preserves_shared (s : SharedState) (m : MonitorState) :
    (∀ dt : Rat, (monitor_step s m dt).1 = s) ∧
      ∀ dts : List Rat, (monitor_run s m dts).1 = s := by
  constructor
  · intro dt
    rfl
  · intro dts
    induction dts generalizing m with
    | nil => rfl
    | cons dt rest ih =>
      show (monitor_run (monitor_step s m dt).1 (monitor_step s m dt).2.1
        rest).1 = s
      exact ih (monitor_step s m dt).2.1

end Miner
